import Mathlib

/-
  Verification of the perfect-hash-table engine of the rust-phf repository.

  The repository file src/phf/src/lib.rs is the facade crate: it re-exports
  Map, OrderedMap, Set and OrderedSet and documents the public behaviour in
  doc examples. The construction algorithm and the lookup engine live in the
  sibling crates of the workspace, which are not part of the packaged source,
  so every definition below is modelled from the specification (sections 3,
  4.1, 4.2, 4.3, 4.5 and 7 of spec.md) and marked as such.
-/

set_option autoImplicit false

namespace Phf

/-- Modelled from the spec: the Hash Family output for one key and one seed.
Section 4.1 gives the contract hashes(key, seed) = (h1, h2, h3) where h1
selects the bucket and (h2, h3) combine with the displacement. -/
structure Hashes where
  h1 : Nat
  h2 : Nat
  h3 : Nat
deriving Repr, DecidableEq

/-- Modelled from the spec: the slot formula of section 4.1,
slot = (h2 + d * h3 + d * d) mod table_size. The same function is used by the
builder when it searches displacements and by the lookup engine. -/
def slotOf (ts : Nat) (h : Hashes) (d : Nat) : Nat :=
  (h.h2 + d * h.h3 + d * d) % ts

/-- Modelled from the spec: the immutable Perfect Hash Table artifact of
section 3: seed, displacement array, and the slot array in which each slot
holds one entry or is empty. -/
structure Table (K V : Type) where
  seed : Nat
  disps : List Nat
  entries : List (Option (K × V))
deriving Repr, DecidableEq

/-- Modelled from the spec: the error taxonomy of section 7. -/
inductive BuildError where
  | duplicateKey
  | constructionError
deriving Repr, DecidableEq

variable {K V : Type}

/-- Modelled from the spec: whether a slot is currently unoccupied. -/
def isFree (slots : List (Option (K × V))) (i : Nat) : Bool :=
  match slots[i]? with
  | some none => true
  | _ => false

/-- Modelled from the spec: a displacement candidate is accepted when every
key of the bucket lands in a currently unoccupied slot and no two keys of the
bucket collide with each other (section 4.2 step 5). -/
def canPlace (slots : List (Option (K × V))) (idxs : List Nat) : Bool :=
  decide idxs.Nodup && idxs.all (fun i => isFree slots i)

/-- Modelled from the spec: the bucket index of a key, h1 mod bucket_count
(section 4.1). -/
def bucketIdx (hf : Nat → K → Hashes) (seed bc : Nat) (k : K) : Nat :=
  (hf seed k).h1 % bc

/-- Modelled from the spec: the slot each pair of a bucket would occupy under
displacement d, paired with the entry itself. -/
def bucketAssign (hf : Nat → K → Hashes) (seed ts d : Nat) (ks : List (K × V)) :
    List (Nat × (K × V)) :=
  ks.map (fun p => (slotOf ts (hf seed p.1) d, p))

/-- Modelled from the spec: try successive displacement values d, d+1, ...
with bounded fuel, returning the first accepted one (section 4.2 step 5; the
bound per bucket is an implementation parameter, section 9; the slot formula
is periodic in d with period table_size, so table_size candidates cover every
distinct placement). -/
def findDisp (hf : Nat → K → Hashes) (seed ts : Nat) (ks : List (K × V))
    (slots : List (Option (K × V))) : Nat → Nat → Option Nat
  | 0, _ => none
  | fuel + 1, d =>
    if canPlace slots ((bucketAssign hf seed ts d ks).map Prod.fst) then some d
    else findDisp hf seed ts ks slots fuel (d + 1)

/-- Modelled from the spec: store each entry at its displacement-resolved
slot (section 4.2 step 5). -/
def placePairs : List (Option (K × V)) → List (Nat × (K × V)) → List (Option (K × V))
  | slots, [] => slots
  | slots, (i, p) :: rest => placePairs (slots.set i (some p)) rest

/-- Modelled from the spec: process the buckets in order; for each bucket find
a displacement, record it in the displacement array at the bucket index, and
mark the chosen slots occupied; fail if some bucket admits no displacement
(section 4.2 steps 5 and 6). -/
def placeBuckets (hf : Nat → K → Hashes) (seed ts : Nat) :
    List (Nat × List (K × V)) → List Nat → List (Option (K × V)) →
    Option (List Nat × List (Option (K × V)))
  | [], disps, slots => some (disps, slots)
  | (bi, ks) :: bs, disps, slots =>
    (findDisp hf seed ts ks slots ts 0).bind fun d =>
      placeBuckets hf seed ts bs (disps.set bi d)
        (placePairs slots (bucketAssign hf seed ts d ks))

/-- Modelled from the spec: group the pairs into buckets by the bucket index
of their key (section 4.2 step 3); bucket_count = table_size (section 4.2
step 2 allows bucket_count = table_size). -/
def bucketsOf (hf : Nat → K → Hashes) (seed bc : Nat) (pairs : List (K × V)) :
    List (Nat × List (K × V)) :=
  (List.range bc).map
    (fun i => (i, pairs.filter (fun p => bucketIdx hf seed bc p.1 == i)))

/-- Modelled from the spec: stable insertion of a bucket into a list sorted by
descending size. -/
def insertBucket (b : Nat × List (K × V)) :
    List (Nat × List (K × V)) → List (Nat × List (K × V))
  | [] => [b]
  | c :: cs => if c.2.length < b.2.length then b :: c :: cs else c :: insertBucket b cs

/-- Modelled from the spec: sort the buckets by descending size, largest
first (section 4.2 step 4). -/
def sortBuckets : List (Nat × List (K × V)) → List (Nat × List (K × V))
  | [] => []
  | b :: bs => insertBucket b (sortBuckets bs)

/-- Modelled from the spec: one construction attempt for a fixed seed
(section 4.2). table_size = N, the smallest allowed choice of step 1, and
bucket_count = table_size. -/
def tryBuild (hf : Nat → K → Hashes) (seed : Nat) (pairs : List (K × V)) :
    Option (Table K V) :=
  let n := pairs.length
  (placeBuckets hf seed n (sortBuckets (bucketsOf hf seed n pairs))
      (List.replicate n 0) (List.replicate n none)).map
    (fun r => ⟨seed, r.1, r.2⟩)

/-- Modelled from the spec: the bounded retry loop over seeds; a failed seed
is discarded whole and the next seed is tried; exhausting the retry budget is
a ConstructionError (section 4.2 step 6 and section 7). -/
def buildFrom (hf : Nat → K → Hashes) (pairs : List (K × V)) :
    Nat → Nat → Except BuildError (Table K V)
  | _, 0 => .error .constructionError
  | seed, r + 1 =>
    match tryBuild hf seed pairs with
    | some t => .ok t
    | none => buildFrom hf pairs (seed + 1) r

/-- Modelled from the spec: the construction entry point. Duplicate keys are
detected eagerly, before bucketing, and fail construction immediately
(section 7, DuplicateKeyError). -/
def build [DecidableEq K] (hf : Nat → K → Hashes) (pairs : List (K × V))
    (seed retries : Nat) : Except BuildError (Table K V) :=
  if (pairs.map Prod.fst).Nodup then buildFrom hf pairs seed retries
  else .error .duplicateKey

/-- Modelled from the spec: the slot a lookup resolves for a query key: read
the displacement at bucket index h1 mod bucket_count and apply the same slot
formula as construction (section 4.3). -/
def Table.lookupSlot (hf : Nat → K → Hashes) (t : Table K V) (k : K) : Nat :=
  slotOf t.entries.length (hf t.seed k)
    (t.disps.getD ((hf t.seed k).h1 % t.disps.length) 0)

/-- Modelled from the spec: get(key): resolve the slot, then compare the key
stored there against the query key by full equality; absent otherwise
(section 4.3). The empty-table guard realises the section 7 requirement that
lookup is total and never errors. -/
def Table.get [DecidableEq K] (hf : Nat → K → Hashes) (t : Table K V) (k : K) :
    Option V :=
  if t.disps.isEmpty then none
  else
    match t.entries[t.lookupSlot hf k]? with
    | some (some (k2, v)) => if k2 = k then some v else none
    | _ => none

/-- Modelled from the spec: the same lookup with its array accesses made
explicit: the outer none models an out-of-bounds array access (a panic), the
inner option is the returned absence indicator. -/
def Table.getChecked [DecidableEq K] (hf : Nat → K → Hashes) (t : Table K V)
    (k : K) : Option (Option V) :=
  if t.disps.isEmpty then some none
  else
    (t.disps[(hf t.seed k).h1 % t.disps.length]?).bind fun d =>
      (t.entries[slotOf t.entries.length (hf t.seed k) d]?).map fun e =>
        match e with
        | none => none
        | some (k2, v) => if k2 = k then some v else none

/-- Modelled from the spec: contains(key), the presence-only query of
section 4.3. -/
def Table.containsKey [DecidableEq K] (hf : Nat → K → Hashes) (t : Table K V)
    (k : K) : Bool :=
  (Table.get hf t k).isSome

/-- Modelled from the spec: len(), the number of entries (section 4.3). -/
def Table.len (t : Table K V) : Nat :=
  t.entries.length

/-- Modelled from the spec: iteration of the plain Map, in slot order
(section 4.3). -/
def Table.toList (t : Table K V) : List (K × V) :=
  t.entries.filterMap id

/-- Modelled from the code doc examples: the bracket indexing operator, which
returns the stored value and panics when the key is absent; none models the
panic. -/
def Table.indexGet [DecidableEq K] (hf : Nat → K → Hashes) (t : Table K V)
    (k : K) : Option V :=
  Table.get hf t k

/-- Modelled from the spec: a read operation in state-passing form: it
returns its result together with the table it leaves behind, which is the
unchanged input table (sections 4.3 and 5: all operations are read-only). -/
def Table.getOp [DecidableEq K] (hf : Nat → K → Hashes) (t : Table K V) (k : K) :
    Option V × Table K V :=
  (Table.get hf t k, t)

/-- Modelled from the spec: contains in state-passing form. -/
def Table.containsOp [DecidableEq K] (hf : Nat → K → Hashes) (t : Table K V)
    (k : K) : Bool × Table K V :=
  (Table.containsKey hf t k, t)

/-- Modelled from the spec: one full iteration in state-passing form. -/
def Table.iterOp (t : Table K V) : List (K × V) × Table K V :=
  (Table.toList t, t)

/-- Modelled from the spec: the OrderedMap artifact of sections 3 and 4.5: a
Map plus the order index, which records for each original insertion position
the slot where the builder placed that key. -/
structure OrderedTable (K V : Type) where
  map : Table K V
  idx : List Nat
deriving Repr, DecidableEq

/-- Modelled from the spec: OrderedMap construction (section 4.5): build the
Map, then record for every key, in its original input position, the slot the
builder placed it at, which is the slot lookup resolves for it. -/
def buildOrdered [DecidableEq K] (hf : Nat → K → Hashes) (pairs : List (K × V))
    (seed retries : Nat) : Except BuildError (OrderedTable K V) :=
  match build hf pairs seed retries with
  | .error e => .error e
  | .ok t => .ok ⟨t, pairs.map (fun p => Table.lookupSlot hf t p.1)⟩

/-- Modelled from the spec: OrderedMap iteration walks the order index and
dereferences into the entries array (section 4.5). -/
def OrderedTable.toList (t : OrderedTable K V) : List (K × V) :=
  t.idx.filterMap
    (fun i =>
      match t.map.entries[i]? with
      | some (some p) => some p
      | _ => none)

/-- Modelled from the spec: OrderedMap get delegates unchanged to the
underlying Map (section 4.5). -/
def OrderedTable.get [DecidableEq K] (hf : Nat → K → Hashes)
    (t : OrderedTable K V) (k : K) : Option V :=
  Table.get hf t.map k

/-- Number of occupied slots of a slot array. -/
def countSome (slots : List (Option (K × V))) : Nat :=
  slots.countP (fun o => o.isSome)

/-- A concrete hash family instance used to exercise the model on closed
inputs. -/
def hfT : Nat → Nat → Hashes :=
  fun seed k => ⟨seed + k, seed * (k + 1) + k * k, 2 * k + 1⟩

/-- A concrete input sequence with unique keys. -/
def pairsW : List (Nat × Nat) := [(10, 100), (20, 200), (30, 300)]

/-- The table the builder produces from pairsW with seed 0. -/
def tW : Table Nat Nat :=
  ⟨0, [0, 1, 0], [some (30, 300), some (20, 200), some (10, 100)]⟩

/-- The ordered table the builder produces from pairsW with seed 0. -/
def otW : OrderedTable Nat Nat := ⟨tW, [2, 1, 0]⟩

/-- A concrete input with a duplicated key. -/
def pairsDup : List (Nat × Nat) := [(0, 1), (0, 2)]

/-- A concrete two-entry input mirroring the crate doc example shape
(first key mapped to 1, second to 2). -/
def pairs2 : List (Nat × Nat) := [(5, 1), (6, 2)]

/-- The table the builder produces from pairs2 with seed 0. -/
def tW2 : Table Nat Nat := ⟨0, [0, 0], [some (6, 2), some (5, 1)]⟩

theorem isFree_iff {slots : List (Option (K × V))} {i : Nat} :
    isFree slots i = true ↔ slots[i]? = some none := by
  unfold isFree
  cases h : slots[i]? with
  | none => simp
  | some o => cases o <;> simp

theorem lt_length_of_isFree {slots : List (Option (K × V))} {i : Nat}
    (h : isFree slots i = true) : i < slots.length :=
  (List.getElem?_eq_some_iff.mp (isFree_iff.mp h)).1

theorem isFree_set_ne {slots : List (Option (K × V))} {i x : Nat} (h : i ≠ x)
    (a : Option (K × V)) : isFree (slots.set i a) x = isFree slots x := by
  unfold isFree
  rw [List.getElem?_set_ne h]

theorem canPlace_iff {slots : List (Option (K × V))} {idxs : List Nat} :
    canPlace slots idxs = true ↔
      idxs.Nodup ∧ ∀ i ∈ idxs, isFree slots i = true := by
  simp [canPlace, List.all_eq_true]

theorem findDisp_some {hf : Nat → K → Hashes} {seed ts : Nat}
    {ks : List (K × V)} {slots : List (Option (K × V))} {fuel d d2 : Nat}
    (h : findDisp hf seed ts ks slots fuel d = some d2) :
    canPlace slots ((bucketAssign hf seed ts d2 ks).map Prod.fst) = true := by
  induction fuel generalizing d with
  | zero => simp [findDisp] at h
  | succ fuel ih =>
    rw [findDisp] at h
    split at h
    next hc => cases h; exact hc
    next => exact ih h

theorem placePairs_length (slots : List (Option (K × V)))
    (l : List (Nat × (K × V))) :
    (placePairs slots l).length = slots.length := by
  induction l generalizing slots with
  | nil => rfl
  | cons ip rest ih =>
    obtain ⟨i, p⟩ := ip
    rw [placePairs, ih, List.length_set]

theorem placePairs_frame {l : List (Nat × (K × V))} {j : Nat}
    (hj : j ∉ l.map Prod.fst) (slots : List (Option (K × V))) :
    (placePairs slots l)[j]? = slots[j]? := by
  induction l generalizing slots with
  | nil => rfl
  | cons ip rest ih =>
    obtain ⟨i, p⟩ := ip
    rw [List.map_cons, List.mem_cons] at hj
    push_neg at hj
    rw [placePairs, ih hj.2, List.getElem?_set_ne (Ne.symm hj.1)]

theorem placePairs_get {l : List (Nat × (K × V))}
    (hnd : (l.map Prod.fst).Nodup)
    {slots : List (Option (K × V))}
    (hfree : ∀ x ∈ l.map Prod.fst, isFree slots x = true) :
    ∀ ip ∈ l, (placePairs slots l)[ip.1]? = some (some ip.2) := by
  induction l generalizing slots with
  | nil => intro ip h; cases h
  | cons hd rest ih =>
    obtain ⟨i, p⟩ := hd
    rw [List.map_cons, List.nodup_cons] at hnd
    intro ip hip
    rcases List.mem_cons.mp hip with rfl | hmem
    · have hlt : i < slots.length :=
        lt_length_of_isFree (hfree _ (List.mem_cons_self _ _))
      rw [placePairs, placePairs_frame hnd.1, List.getElem?_set_self hlt]
    · rw [placePairs]
      refine ih hnd.2 ?_ ip hmem
      intro x hx
      have hxi : i ≠ x := fun he => hnd.1 (he ▸ hx)
      rw [isFree_set_ne hxi]
      exact hfree x (List.mem_cons_of_mem _ hx)

theorem placePairs_mono {l : List (Nat × (K × V))}
    {slots : List (Option (K × V))}
    (hfree : ∀ x ∈ l.map Prod.fst, isFree slots x = true)
    {j : Nat} {e : K × V} (hj : slots[j]? = some (some e)) :
    (placePairs slots l)[j]? = some (some e) := by
  have hnotmem : j ∉ l.map Prod.fst := by
    intro hmem
    have hf2 := isFree_iff.mp (hfree j hmem)
    rw [hj] at hf2
    simp at hf2
  rw [placePairs_frame hnotmem, hj]

theorem placePairs_sub {l : List (Nat × (K × V))}
    {slots : List (Option (K × V))} {e : K × V}
    (h : some e ∈ placePairs slots l) :
    some e ∈ slots ∨ ∃ ip ∈ l, e = ip.2 := by
  induction l generalizing slots with
  | nil => exact Or.inl h
  | cons hd rest ih =>
    obtain ⟨i, p⟩ := hd
    rw [placePairs] at h
    rcases ih h with h2 | ⟨ip, hip, rfl⟩
    · rcases List.mem_or_eq_of_mem_set h2 with h3 | h3
      · exact Or.inl h3
      · exact Or.inr ⟨(i, p), List.mem_cons_self _ _, Option.some.inj h3⟩
    · exact Or.inr ⟨ip, List.mem_cons_of_mem _ hip, rfl⟩

theorem countSome_set {slots : List (Option (K × V))} {i : Nat}
    (h : slots[i]? = some none) (p : K × V) :
    countSome (slots.set i (some p)) = countSome slots + 1 := by
  obtain ⟨hlt, hget⟩ := List.getElem?_eq_some_iff.mp h
  unfold countSome
  rw [List.countP_set _ _ _ _ hlt]
  simp [hget]

theorem placePairs_count {l : List (Nat × (K × V))}
    (hnd : (l.map Prod.fst).Nodup)
    {slots : List (Option (K × V))}
    (hfree : ∀ x ∈ l.map Prod.fst, isFree slots x = true) :
    countSome (placePairs slots l) = countSome slots + l.length := by
  induction l generalizing slots with
  | nil => rfl
  | cons hd rest ih =>
    obtain ⟨i, p⟩ := hd
    rw [List.map_cons, List.nodup_cons] at hnd
    have hfi : slots[i]? = some none :=
      isFree_iff.mp (hfree _ (List.mem_cons_self _ _))
    rw [placePairs, ih hnd.2 ?_, countSome_set hfi, List.length_cons]
    · omega
    · intro x hx
      have hxi : i ≠ x := fun he => hnd.1 (he ▸ hx)
      rw [isFree_set_ne hxi]
      exact hfree x (List.mem_cons_of_mem _ hx)

theorem placeBuckets_lengths {hf : Nat → K → Hashes} {seed ts : Nat}
    {bs : List (Nat × List (K × V))} {disps : List Nat}
    {slots : List (Option (K × V))} {disps2 : List Nat}
    {slots2 : List (Option (K × V))}
    (h : placeBuckets hf seed ts bs disps slots = some (disps2, slots2)) :
    disps2.length = disps.length ∧ slots2.length = slots.length := by
  induction bs generalizing disps slots with
  | nil =>
    rw [placeBuckets] at h
    cases h
    exact ⟨rfl, rfl⟩
  | cons b bs ih =>
    obtain ⟨bi, ks⟩ := b
    rw [placeBuckets, Option.bind_eq_some] at h
    obtain ⟨d, hfd, h⟩ := h
    obtain ⟨h1, h2⟩ := ih h
    rw [List.length_set] at h1
    rw [placePairs_length] at h2
    exact ⟨h1, h2⟩

theorem placeBuckets_mono {hf : Nat → K → Hashes} {seed ts : Nat}
    {bs : List (Nat × List (K × V))} {disps : List Nat}
    {slots : List (Option (K × V))} {disps2 : List Nat}
    {slots2 : List (Option (K × V))}
    (h : placeBuckets hf seed ts bs disps slots = some (disps2, slots2))
    {j : Nat} {e : K × V} (hj : slots[j]? = some (some e)) :
    slots2[j]? = some (some e) := by
  induction bs generalizing disps slots with
  | nil =>
    rw [placeBuckets] at h
    cases h
    exact hj
  | cons b bs ih =>
    obtain ⟨bi, ks⟩ := b
    rw [placeBuckets, Option.bind_eq_some] at h
    obtain ⟨d, hfd, h⟩ := h
    have hc := canPlace_iff.mp (findDisp_some hfd)
    exact ih h (placePairs_mono hc.2 hj)

theorem placeBuckets_disps_frame {hf : Nat → K → Hashes} {seed ts : Nat}
    {bs : List (Nat × List (K × V))} {disps : List Nat}
    {slots : List (Option (K × V))} {disps2 : List Nat}
    {slots2 : List (Option (K × V))}
    (h : placeBuckets hf seed ts bs disps slots = some (disps2, slots2))
    {j : Nat} (hj : j ∉ bs.map Prod.fst) :
    disps2[j]? = disps[j]? := by
  induction bs generalizing disps slots with
  | nil =>
    rw [placeBuckets] at h
    cases h
    rfl
  | cons b bs ih =>
    obtain ⟨bi, ks⟩ := b
    rw [List.map_cons, List.mem_cons] at hj
    push_neg at hj
    rw [placeBuckets, Option.bind_eq_some] at h
    obtain ⟨d, hfd, h⟩ := h
    rw [ih h hj.2, List.getElem?_set_ne (Ne.symm hj.1)]

theorem placeBuckets_placed {hf : Nat → K → Hashes} {seed ts : Nat}
    {bs : List (Nat × List (K × V))} {disps : List Nat}
    {slots : List (Option (K × V))} {disps2 : List Nat}
    {slots2 : List (Option (K × V))}
    (h : placeBuckets hf seed ts bs disps slots = some (disps2, slots2))
    (hnd : (bs.map Prod.fst).Nodup)
    (hlt : ∀ b ∈ bs, b.1 < disps.length) :
    ∀ b ∈ bs, ∀ p ∈ b.2,
      slots2[slotOf ts (hf seed p.1) (disps2.getD b.1 0)]? = some (some p) := by
  induction bs generalizing disps slots with
  | nil => intro b hb; cases hb
  | cons hd2 bs ih =>
    obtain ⟨bi, ks⟩ := hd2
    rw [placeBuckets, Option.bind_eq_some] at h
    obtain ⟨d, hfd, h⟩ := h
    have hc := canPlace_iff.mp (findDisp_some hfd)
    rw [List.map_cons, List.nodup_cons] at hnd
    intro b hb p hp
    rcases List.mem_cons.mp hb with rfl | hmem
    · have hbi : bi < disps.length := hlt _ (List.mem_cons_self _ _)
      have hdisp : disps2[bi]? = some d := by
        rw [placeBuckets_disps_frame h hnd.1, List.getElem?_set_self hbi]
      have hgetD : disps2.getD bi 0 = d := by
        rw [List.getD_eq_getElem?_getD, hdisp]
        rfl
      have hmemb : (slotOf ts (hf seed p.1) d, p) ∈ bucketAssign hf seed ts d ks :=
        List.mem_map_of_mem _ hp
      have hplaced := placePairs_get hc.1 hc.2 _ hmemb
      rw [hgetD]
      exact placeBuckets_mono h hplaced
    · refine ih h hnd.2 ?_ b hmem p hp
      intro b2 hb2
      rw [List.length_set]
      exact hlt b2 (List.mem_cons_of_mem _ hb2)

theorem placeBuckets_sub {hf : Nat → K → Hashes} {seed ts : Nat}
    {bs : List (Nat × List (K × V))} {disps : List Nat}
    {slots : List (Option (K × V))} {disps2 : List Nat}
    {slots2 : List (Option (K × V))}
    (h : placeBuckets hf seed ts bs disps slots = some (disps2, slots2))
    {e : K × V} (he : some e ∈ slots2) :
    some e ∈ slots ∨ ∃ b ∈ bs, e ∈ b.2 := by
  induction bs generalizing disps slots with
  | nil =>
    rw [placeBuckets] at h
    cases h
    exact Or.inl he
  | cons hd2 bs ih =>
    obtain ⟨bi, ks⟩ := hd2
    rw [placeBuckets, Option.bind_eq_some] at h
    obtain ⟨d, hfd, h⟩ := h
    rcases ih h with h2 | ⟨b, hb, hbe⟩
    · rcases placePairs_sub h2 with h3 | ⟨ip, hip, rfl⟩
      · exact Or.inl h3
      · obtain ⟨q, hq, rfl⟩ := List.mem_map.mp hip
        exact Or.inr ⟨(bi, ks), List.mem_cons_self _ _, hq⟩
    · exact Or.inr ⟨b, List.mem_cons_of_mem _ hb, hbe⟩

theorem placeBuckets_count {hf : Nat → K → Hashes} {seed ts : Nat}
    {bs : List (Nat × List (K × V))} {disps : List Nat}
    {slots : List (Option (K × V))} {disps2 : List Nat}
    {slots2 : List (Option (K × V))}
    (h : placeBuckets hf seed ts bs disps slots = some (disps2, slots2)) :
    countSome slots2 = countSome slots + (bs.map (fun b => b.2.length)).sum := by
  induction bs generalizing disps slots with
  | nil =>
    rw [placeBuckets] at h
    cases h
    simp
  | cons hd2 bs ih =>
    obtain ⟨bi, ks⟩ := hd2
    rw [placeBuckets, Option.bind_eq_some] at h
    obtain ⟨d, hfd, h⟩ := h
    have hc := canPlace_iff.mp (findDisp_some hfd)
    rw [ih h, placePairs_count hc.1 hc.2, List.map_cons, List.sum_cons,
      bucketAssign, List.length_map]
    show countSome slots + ks.length + _ = countSome slots + (ks.length + _)
    omega

theorem bucketsOf_map_fst (hf : Nat → K → Hashes) (seed bc : Nat)
    (pairs : List (K × V)) :
    (bucketsOf hf seed bc pairs).map Prod.fst = List.range bc := by
  rw [bucketsOf, List.map_map]
  exact List.map_id _

theorem mem_bucketsOf {hf : Nat → K → Hashes} {seed bc : Nat}
    {pairs : List (K × V)} {b : Nat × List (K × V)}
    (hb : b ∈ bucketsOf hf seed bc pairs) :
    b.1 < bc ∧ b.2 = pairs.filter (fun p => bucketIdx hf seed bc p.1 == b.1) := by
  rw [bucketsOf] at hb
  obtain ⟨i, hi, rfl⟩ := List.mem_map.mp hb
  exact ⟨List.mem_range.mp hi, rfl⟩

theorem bucketsOf_mem_of_mem {hf : Nat → K → Hashes} {seed bc : Nat}
    {pairs : List (K × V)} {p : K × V} (hp : p ∈ pairs) (hbc : 0 < bc) :
    (bucketIdx hf seed bc p.1,
        pairs.filter (fun q => bucketIdx hf seed bc q.1 == bucketIdx hf seed bc p.1))
      ∈ bucketsOf hf seed bc pairs ∧
    p ∈ pairs.filter (fun q => bucketIdx hf seed bc q.1 == bucketIdx hf seed bc p.1) := by
  constructor
  · rw [bucketsOf]
    exact List.mem_map_of_mem _ (List.mem_range.mpr (Nat.mod_lt _ hbc))
  · rw [List.mem_filter]
    exact ⟨hp, by simp⟩

theorem insertBucket_perm (b : Nat × List (K × V))
    (l : List (Nat × List (K × V))) : (insertBucket b l).Perm (b :: l) := by
  induction l with
  | nil => exact List.Perm.refl _
  | cons c cs ih =>
    rw [insertBucket]
    split
    · exact List.Perm.refl _
    · exact (ih.cons c).trans (List.Perm.swap b c cs)

theorem sortBuckets_perm (l : List (Nat × List (K × V))) :
    (sortBuckets l).Perm l := by
  induction l with
  | nil => exact List.Perm.refl _
  | cons b bs ih =>
    rw [sortBuckets]
    exact (insertBucket_perm b (sortBuckets bs)).trans (ih.cons b)

theorem sum_map_add {α : Type} (l : List α) (f g : α → Nat) :
    (l.map (fun a => f a + g a)).sum = (l.map f).sum + (l.map g).sum := by
  induction l with
  | nil => rfl
  | cons a l ih =>
    simp only [List.map_cons, List.sum_cons, ih]
    omega

theorem sum_indicator_not_mem {x : Nat} {l : List Nat} (h : x ∉ l) :
    (l.map (fun i => if x = i then 1 else 0)).sum = 0 := by
  induction l with
  | nil => rfl
  | cons a l ih =>
    rw [List.mem_cons] at h
    push_neg at h
    simp [List.map_cons, h.1, ih h.2]

theorem sum_indicator_mem {x n : Nat} (h : x < n) :
    ((List.range n).map (fun i => if x = i then 1 else 0)).sum = 1 := by
  induction n with
  | zero => omega
  | succ n ih =>
    rw [List.range_succ, List.map_append, List.sum_append]
    by_cases hx : x = n
    · have hnm : x ∉ List.range n := by
        rw [List.mem_range]
        omega
      rw [sum_indicator_not_mem hnm]
      simp [hx]
    · rw [ih (by omega)]
      simp [hx]

theorem filter_bucket_sum {hf : Nat → K → Hashes} {seed : Nat}
    {pairs : List (K × V)} {bc : Nat}
    (h : ∀ p ∈ pairs, bucketIdx hf seed bc p.1 < bc) :
    ((List.range bc).map
        (fun i => (pairs.filter (fun p => bucketIdx hf seed bc p.1 == i)).length)).sum
      = pairs.length := by
  induction pairs with
  | nil => simp
  | cons p ps ih =>
    have hp := h p (List.mem_cons_self _ _)
    have hps : ∀ q ∈ ps, bucketIdx hf seed bc q.1 < bc :=
      fun q hq => h q (List.mem_cons_of_mem _ hq)
    have heach : ∀ i ∈ List.range bc,
        (List.filter (fun q => bucketIdx hf seed bc q.1 == i) (p :: ps)).length
          = (if bucketIdx hf seed bc p.1 = i then 1 else 0)
            + (ps.filter (fun q => bucketIdx hf seed bc q.1 == i)).length := by
      intro i _
      rw [List.filter_cons]
      by_cases hbi : bucketIdx hf seed bc p.1 = i
      · simp only [hbi]
        simp
        omega
      · simp [hbi]
    rw [List.map_congr_left heach, sum_map_add, sum_indicator_mem hp, ih hps,
      List.length_cons]
    omega

theorem tryBuild_parts {hf : Nat → K → Hashes} {seed : Nat}
    {pairs : List (K × V)} {t : Table K V}
    (h : tryBuild hf seed pairs = some t) :
    t.seed = seed ∧ t.disps.length = pairs.length ∧
      t.entries.length = pairs.length := by
  rw [tryBuild, Option.map_eq_some'] at h
  obtain ⟨⟨disps, slots⟩, hpb, rfl⟩ := h
  obtain ⟨h1, h2⟩ := placeBuckets_lengths hpb
  rw [List.length_replicate] at h1 h2
  exact ⟨rfl, h1, h2⟩

theorem tryBuild_stored {hf : Nat → K → Hashes} {seed : Nat}
    {pairs : List (K × V)} {t : Table K V}
    (h : tryBuild hf seed pairs = some t) :
    ∀ p ∈ pairs, t.entries[Table.lookupSlot hf t p.1]? = some (some p) := by
  rw [tryBuild, Option.map_eq_some'] at h
  obtain ⟨⟨disps, slots⟩, hpb, rfl⟩ := h
  intro p hp
  have hn : 0 < pairs.length := List.length_pos_of_mem hp
  obtain ⟨hlen1, hlen2⟩ := placeBuckets_lengths hpb
  rw [List.length_replicate] at hlen1 hlen2
  obtain ⟨hbmem, hpfilter⟩ :=
    @bucketsOf_mem_of_mem K V hf seed pairs.length pairs p hp hn
  have hsmem :=
    ((sortBuckets_perm (bucketsOf hf seed pairs.length pairs)).mem_iff).mpr hbmem
  have hnd :
      ((sortBuckets (bucketsOf hf seed pairs.length pairs)).map Prod.fst).Nodup := by
    rw [((sortBuckets_perm (bucketsOf hf seed pairs.length pairs)).map
        Prod.fst).nodup_iff, bucketsOf_map_fst]
    exact List.nodup_range _
  have hltb : ∀ b ∈ sortBuckets (bucketsOf hf seed pairs.length pairs),
      b.1 < (List.replicate pairs.length (0 : Nat)).length := by
    intro b hb
    rw [List.length_replicate]
    exact (mem_bucketsOf
      ((sortBuckets_perm (bucketsOf hf seed pairs.length pairs)).subset hb)).1
  have hplaced := placeBuckets_placed hpb hnd hltb _ hsmem p hpfilter
  simp only [bucketIdx] at hplaced
  show slots[Table.lookupSlot hf ⟨seed, disps, slots⟩ p.1]? = some (some p)
  rw [Table.lookupSlot]
  simp only [hlen1, hlen2]
  exact hplaced

theorem tryBuild_entries_sub {hf : Nat → K → Hashes} {seed : Nat}
    {pairs : List (K × V)} {t : Table K V}
    (h : tryBuild hf seed pairs = some t) {e : K × V}
    (he : some e ∈ t.entries) : e ∈ pairs := by
  rw [tryBuild, Option.map_eq_some'] at h
  obtain ⟨⟨disps, slots⟩, hpb, rfl⟩ := h
  rcases placeBuckets_sub hpb he with h2 | ⟨b, hb, hbe⟩
  · have h3 := List.eq_of_mem_replicate h2
    cases h3
  · have hb2 := (sortBuckets_perm (bucketsOf hf seed pairs.length pairs)).subset hb
    rw [(mem_bucketsOf hb2).2] at hbe
    exact (List.mem_filter.mp hbe).1

theorem tryBuild_count {hf : Nat → K → Hashes} {seed : Nat}
    {pairs : List (K × V)} {t : Table K V}
    (h : tryBuild hf seed pairs = some t) :
    countSome t.entries = pairs.length := by
  rw [tryBuild, Option.map_eq_some'] at h
  obtain ⟨⟨disps, slots⟩, hpb, rfl⟩ := h
  show countSome slots = pairs.length
  have h0 : countSome (List.replicate pairs.length (none : Option (K × V))) = 0 := by
    simp [countSome]
  have hpermsum :
      ((sortBuckets (bucketsOf hf seed pairs.length pairs)).map
          (fun b => b.2.length)).sum
        = ((bucketsOf hf seed pairs.length pairs).map (fun b => b.2.length)).sum :=
    ((sortBuckets_perm (bucketsOf hf seed pairs.length pairs)).map
      (fun b => b.2.length)).sum_eq
  have hblt : ∀ p ∈ pairs, bucketIdx hf seed pairs.length p.1 < pairs.length :=
    fun p hp => Nat.mod_lt _ (List.length_pos_of_mem hp)
  have hsum := @filter_bucket_sum K V hf seed pairs pairs.length hblt
  rw [placeBuckets_count hpb, h0, Nat.zero_add, hpermsum, bucketsOf, List.map_map]
  simpa using hsum

theorem buildFrom_ok {hf : Nat → K → Hashes} {pairs : List (K × V)}
    {seed r : Nat} {t : Table K V}
    (h : buildFrom hf pairs seed r = .ok t) :
    ∃ s, tryBuild hf s pairs = some t := by
  induction r generalizing seed with
  | zero =>
    rw [buildFrom] at h
    exact Except.noConfusion h
  | succ r ih =>
    rw [buildFrom] at h
    cases htb : tryBuild hf seed pairs with
    | some t2 =>
      rw [htb] at h
      have h2 : t2 = t := Except.ok.inj h
      subst h2
      exact ⟨seed, htb⟩
    | none =>
      rw [htb] at h
      exact ih h

theorem build_ok [DecidableEq K] {hf : Nat → K → Hashes} {pairs : List (K × V)}
    {seed retries : Nat} {t : Table K V}
    (h : build hf pairs seed retries = .ok t) :
    (pairs.map Prod.fst).Nodup ∧ ∃ s, tryBuild hf s pairs = some t := by
  rw [build] at h
  split at h
  next hnd => exact ⟨hnd, buildFrom_ok h⟩
  next => exact Except.noConfusion h

theorem build_stored [DecidableEq K] {hf : Nat → K → Hashes}
    {pairs : List (K × V)} {seed retries : Nat} {t : Table K V}
    (h : build hf pairs seed retries = .ok t) :
    t.disps.length = pairs.length ∧ t.entries.length = pairs.length ∧
      (∀ p ∈ pairs, t.entries[Table.lookupSlot hf t p.1]? = some (some p)) ∧
      (∀ e : K × V, some e ∈ t.entries → e ∈ pairs) ∧
      countSome t.entries = pairs.length := by
  obtain ⟨hnd, s, hs⟩ := build_ok h
  obtain ⟨-, h1, h2⟩ := tryBuild_parts hs
  exact ⟨h1, h2, tryBuild_stored hs, fun e he => tryBuild_entries_sub hs he,
    tryBuild_count hs⟩

theorem disps_ne_empty [DecidableEq K] {hf : Nat → K → Hashes}
    {pairs : List (K × V)} {seed retries : Nat} {t : Table K V} {p : K × V}
    (h : build hf pairs seed retries = .ok t) (hp : p ∈ pairs) :
    ¬ t.disps.isEmpty = true := by
  obtain ⟨hd, -, -, -, -⟩ := build_stored h
  rw [List.isEmpty_iff]
  intro h0
  rw [h0] at hd
  have := List.length_pos_of_mem hp
  simp at hd
  omega

theorem get_eq_some_of_mem [DecidableEq K] {hf : Nat → K → Hashes}
    {pairs : List (K × V)} {seed retries : Nat} {t : Table K V} {k : K} {v : V}
    (hb : build hf pairs seed retries = .ok t) (hkv : (k, v) ∈ pairs) :
    Table.get hf t k = some v := by
  obtain ⟨hd, he, hst, -, -⟩ := build_stored hb
  have hst2 : t.entries[Table.lookupSlot hf t k]? = some (some (k, v)) :=
    hst (k, v) hkv
  rw [Table.get, if_neg (disps_ne_empty hb hkv), hst2]
  simp

theorem get_eq_none_of_not_mem [DecidableEq K] {hf : Nat → K → Hashes}
    {pairs : List (K × V)} {seed retries : Nat} {t : Table K V} {k : K}
    (hb : build hf pairs seed retries = .ok t) (hk : k ∉ pairs.map Prod.fst) :
    Table.get hf t k = none := by
  obtain ⟨hd, he, hst, hsub, -⟩ := build_stored hb
  rw [Table.get]
  split
  · rfl
  · cases hE : t.entries[Table.lookupSlot hf t k]? with
    | none => rfl
    | some o =>
      cases o with
      | none => rfl
      | some kv =>
        obtain ⟨k2, v⟩ := kv
        have hmem : (k2, v) ∈ pairs := hsub _ (List.getElem?_mem hE)
        have hk2 : k2 ≠ k := by
          intro hkk
          subst hkk
          exact hk (List.mem_map_of_mem Prod.fst hmem)
        simp [hk2]

theorem lookupSlot_inj_core [DecidableEq K] {hf : Nat → K → Hashes}
    {pairs : List (K × V)} {seed retries : Nat} {t : Table K V}
    {k1 k2 : K} {v1 v2 : V}
    (hb : build hf pairs seed retries = .ok t)
    (h1 : (k1, v1) ∈ pairs) (h2 : (k2, v2) ∈ pairs)
    (heq : Table.lookupSlot hf t k1 = Table.lookupSlot hf t k2) : k1 = k2 := by
  obtain ⟨-, -, hst, -, -⟩ := build_stored hb
  have e1 : t.entries[Table.lookupSlot hf t k1]? = some (some (k1, v1)) :=
    hst _ h1
  have e2 : t.entries[Table.lookupSlot hf t k2]? = some (some (k2, v2)) :=
    hst _ h2
  rw [heq, e2] at e1
  simp at e1
  exact e1.1.symm

theorem getChecked_eq_some_get [DecidableEq K] {hf : Nat → K → Hashes}
    {pairs : List (K × V)} {seed retries : Nat} {t : Table K V}
    (hb : build hf pairs seed retries = .ok t) (k : K) :
    Table.getChecked hf t k = some (Table.get hf t k) := by
  obtain ⟨hd, he, -, -, -⟩ := build_stored hb
  by_cases hem : t.disps.isEmpty
  · rw [Table.getChecked, if_pos hem, Table.get, if_pos hem]
  · have hd0 : 0 < t.disps.length :=
      List.length_pos.mpr (fun h0 => hem (List.isEmpty_iff.mpr h0))
    have he0 : 0 < t.entries.length := by
      rw [he, ← hd]
      exact hd0
    rw [Table.getChecked, if_neg hem, Table.get, if_neg hem]
    have hidx : (hf t.seed k).h1 % t.disps.length < t.disps.length :=
      Nat.mod_lt _ hd0
    obtain ⟨d, hdq⟩ :
        ∃ d, t.disps[(hf t.seed k).h1 % t.disps.length]? = some d :=
      ⟨_, List.getElem?_eq_getElem hidx⟩
    have hls : Table.lookupSlot hf t k
        = slotOf t.entries.length (hf t.seed k) d := by
      rw [Table.lookupSlot, List.getD_eq_getElem?_getD, hdq]
      rfl
    have hslot : slotOf t.entries.length (hf t.seed k) d < t.entries.length := by
      rw [slotOf]
      exact Nat.mod_lt _ he0
    obtain ⟨e, heq2⟩ :
        ∃ e, t.entries[slotOf t.entries.length (hf t.seed k) d]? = some e :=
      ⟨_, List.getElem?_eq_getElem hslot⟩
    rw [hdq, Option.some_bind, heq2, hls, heq2, Option.map_some']
    cases e with
    | none => rfl
    | some kv =>
      obtain ⟨k2, v⟩ := kv
      rfl

theorem build_duplicate [DecidableEq K] {hf : Nat → K → Hashes}
    {pairs : List (K × V)} (hdup : ¬ (pairs.map Prod.fst).Nodup)
    (seed retries : Nat) :
    build hf pairs seed retries = .error .duplicateKey := by
  rw [build, if_neg hdup]

theorem filterMap_id_of_mem {α : Type} {l : List α} {h : α → Option α}
    (hh : ∀ a ∈ l, h a = some a) : l.filterMap h = l := by
  induction l with
  | nil => rfl
  | cons a l ih =>
    rw [List.filterMap_cons, hh a (List.mem_cons_self _ _)]
    show a :: List.filterMap h l = a :: l
    rw [ih (fun b hb => hh b (List.mem_cons_of_mem _ hb))]

theorem toList_perm_core [DecidableEq K] {hf : Nat → K → Hashes}
    {pairs : List (K × V)} {seed retries : Nat} {t : Table K V}
    (hb : build hf pairs seed retries = .ok t) :
    Table.len t = pairs.length ∧ (Table.toList t).length = pairs.length ∧
      (Table.toList t).Perm pairs := by
  obtain ⟨hnd, s, hs⟩ := build_ok hb
  obtain ⟨hd, he, hst, hsub, hcount⟩ := build_stored hb
  have hlen : (Table.toList t).length = pairs.length := by
    rw [Table.toList, List.length_filterMap_eq_countP]
    exact hcount
  have hsubset : pairs ⊆ Table.toList t := by
    intro p hp
    rw [Table.toList, List.mem_filterMap]
    exact ⟨some p, List.getElem?_mem (hst p hp), rfl⟩
  have hndp : pairs.Nodup := List.Nodup.of_map _ hnd
  have hsp : pairs.Subperm (Table.toList t) :=
    List.subperm_of_subset hndp hsubset
  exact ⟨he, hlen, (hsp.perm_of_length_le (Nat.le_of_eq hlen)).symm⟩

theorem buildOrdered_ok [DecidableEq K] {hf : Nat → K → Hashes}
    {pairs : List (K × V)} {seed retries : Nat} {ot : OrderedTable K V}
    (hb : buildOrdered hf pairs seed retries = .ok ot) :
    ∃ t, build hf pairs seed retries = .ok t ∧
      ot = ⟨t, pairs.map (fun p => Table.lookupSlot hf t p.1)⟩ := by
  rw [buildOrdered] at hb
  cases hbm : build hf pairs seed retries with
  | error e =>
    rw [hbm] at hb
    exact Except.noConfusion hb
  | ok t =>
    rw [hbm] at hb
    exact ⟨t, rfl, (Except.ok.inj hb).symm⟩

theorem ordered_core [DecidableEq K] {hf : Nat → K → Hashes}
    {pairs : List (K × V)} {seed retries : Nat} {ot : OrderedTable K V}
    (hb : buildOrdered hf pairs seed retries = .ok ot) :
    OrderedTable.toList ot = pairs ∧
      (∀ k v, (k, v) ∈ pairs → OrderedTable.get hf ot k = some v) ∧
      ot.idx.Perm (List.range pairs.length) := by
  obtain ⟨t, hbm, rfl⟩ := buildOrdered_ok hb
  obtain ⟨hnd, s, hs⟩ := build_ok hbm
  obtain ⟨hd, he, hst, hsub, hcount⟩ := build_stored hbm
  have hndp : pairs.Nodup := List.Nodup.of_map _ hnd
  refine ⟨?_, ?_, ?_⟩
  · show List.filterMap _ (pairs.map fun p => Table.lookupSlot hf t p.1) = pairs
    rw [List.filterMap_map]
    refine filterMap_id_of_mem ?_
    intro p hp
    simp only [Function.comp_apply]
    rw [hst p hp]
  · intro k v hkv
    show Table.get hf t k = some v
    exact get_eq_some_of_mem hbm hkv
  · show (pairs.map fun p => Table.lookupSlot hf t p.1).Perm
      (List.range pairs.length)
    have hinj : ∀ x ∈ pairs, ∀ y ∈ pairs,
        Table.lookupSlot hf t x.1 = Table.lookupSlot hf t y.1 → x = y := by
      intro x hx y hy hxy
      have e1 := hst x hx
      rw [hxy, hst y hy] at e1
      simp at e1
      exact e1.symm
    have hndidx := List.Nodup.map_on hinj hndp
    have hsubset : (pairs.map fun p => Table.lookupSlot hf t p.1)
        ⊆ List.range pairs.length := by
      intro i hi
      obtain ⟨p, hp, rfl⟩ := List.mem_map.mp hi
      rw [List.mem_range]
      have hn : 0 < pairs.length := List.length_pos_of_mem hp
      have h2 : Table.lookupSlot hf t p.1 < t.entries.length := by
        rw [Table.lookupSlot, slotOf]
        refine Nat.mod_lt _ ?_
        rw [he]
        exact hn
      rwa [he] at h2
    have hsp := List.subperm_of_subset hndidx hsubset
    refine hsp.perm_of_length_le ?_
    rw [List.length_range, List.length_map]

/-- C1: for every key set with unique keys from which a Map was successfully
constructed and every construction key, get returns exactly the value that
was associated with that key at construction time. -/
theorem claim_C1_get_returns_value [DecidableEq K] {hf : Nat → K → Hashes}
    {pairs : List (K × V)} {seed retries : Nat} {t : Table K V} {k : K} {v : V}
    (hb : build hf pairs seed retries = .ok t) (hkv : (k, v) ∈ pairs) :
    Table.get hf t k = some v :=
  get_eq_some_of_mem hb hkv

theorem claim_C1_witness :
    build hfT pairsW 0 9 = .ok tW ∧ Table.get hfT tW 20 = some 200 :=
  ⟨by rfl, @claim_C1_get_returns_value Nat Nat _ hfT pairsW 0 9 tW 20 200
    (by rfl) (by decide)⟩

/-- C2: get on any query key outside the construction key set returns absent,
also when the query key resolves to an occupied slot; the decision is made by
the full equality comparison against the key stored at the resolved slot. -/
theorem claim_C2_get_absent [DecidableEq K] {hf : Nat → K → Hashes}
    {pairs : List (K × V)} {seed retries : Nat} {t : Table K V} {k : K}
    (hb : build hf pairs seed retries = .ok t) (hk : k ∉ pairs.map Prod.fst) :
    Table.get hf t k = none :=
  get_eq_none_of_not_mem hb hk

theorem claim_C2_witness :
    (build hfT pairsW 0 9 = .ok tW ∧ (7 : Nat) ∉ pairsW.map Prod.fst ∧
        Table.lookupSlot hfT tW 7 = Table.lookupSlot hfT tW 10) ∧
      Table.get hfT tW 7 = none :=
  ⟨⟨by rfl, by decide, by rfl⟩,
    @claim_C2_get_absent Nat Nat _ hfT pairsW 0 9 tW 7 (by rfl) (by decide)⟩

/-- C3: after a successful construction over a unique key set, the slot
resolved at lookup is injective on the construction keys: distinct keys of
the input occupy distinct slots. -/
theorem claim_C3_slots_distinct [DecidableEq K] {hf : Nat → K → Hashes}
    {pairs : List (K × V)} {seed retries : Nat} {t : Table K V}
    {k1 k2 : K} {v1 v2 : V}
    (hb : build hf pairs seed retries = .ok t)
    (h1 : (k1, v1) ∈ pairs) (h2 : (k2, v2) ∈ pairs) (hne : k1 ≠ k2) :
    Table.lookupSlot hf t k1 ≠ Table.lookupSlot hf t k2 :=
  fun heq => hne (lookupSlot_inj_core hb h1 h2 heq)

theorem claim_C3_witness :
    (build hfT pairsW 0 9 = .ok tW ∧ (10, 100) ∈ pairsW ∧ (20, 200) ∈ pairsW ∧
        (10 : Nat) ≠ 20) ∧
      Table.lookupSlot hfT tW 10 ≠ Table.lookupSlot hfT tW 20 :=
  ⟨⟨by rfl, by decide, by decide, by decide⟩,
    @claim_C3_slots_distinct Nat Nat _ hfT pairsW 0 9 tW 10 20 100 200
      (by rfl) (by decide) (by decide) (by decide)⟩

/-- C4: on a well-formed table every lookup is total: the checked lookup
never takes an out-of-bounds path and returns exactly the total
absence-indicator result, and contains is its isSome image. -/
theorem claim_C4_lookup_total [DecidableEq K] {hf : Nat → K → Hashes}
    {pairs : List (K × V)} {seed retries : Nat} {t : Table K V}
    (hb : build hf pairs seed retries = .ok t) (k : K) :
    Table.getChecked hf t k = some (Table.get hf t k) ∧
      Table.containsKey hf t k = (Table.get hf t k).isSome :=
  ⟨getChecked_eq_some_get hb k, rfl⟩

theorem claim_C4_witness :
    build hfT pairsW 0 9 = .ok tW ∧
      (Table.getChecked hfT tW 999 = some (Table.get hfT tW 999) ∧
        Table.containsKey hfT tW 999 = (Table.get hfT tW 999).isSome) :=
  ⟨by rfl, @claim_C4_lookup_total Nat Nat _ hfT pairsW 0 9 tW (by rfl) 999⟩

/-- C5: construction is deterministic given the seed: two builds from the
same pairs with the same seed yield identical displacement arrays and
identical entries arrays. -/
theorem claim_C5_deterministic [DecidableEq K] (hf : Nat → K → Hashes)
    (pairs : List (K × V)) (seed retries : Nat) {t1 t2 : Table K V}
    (h1 : build hf pairs seed retries = .ok t1)
    (h2 : build hf pairs seed retries = .ok t2) :
    t1.disps = t2.disps ∧ t1.entries = t2.entries := by
  rw [h1] at h2
  cases Except.ok.inj h2
  exact ⟨rfl, rfl⟩

theorem claim_C5_witness :
    (build hfT pairsW 0 9 = .ok tW ∧ build hfT pairsW 0 9 = .ok tW) ∧
      tW.disps = tW.disps ∧ tW.entries = tW.entries :=
  ⟨⟨by rfl, by rfl⟩,
    @claim_C5_deterministic Nat Nat _ hfT pairsW 0 9 tW tW (by rfl) (by rfl)⟩

/-- C6: len equals the number of input pairs, and a full iteration yields
exactly that many pairs, forming a permutation of the input pairs, so each
input pair appears exactly once. -/
theorem claim_C6_exhaustive [DecidableEq K] {hf : Nat → K → Hashes}
    {pairs : List (K × V)} {seed retries : Nat} {t : Table K V}
    (hb : build hf pairs seed retries = .ok t) :
    Table.len t = pairs.length ∧ (Table.toList t).length = pairs.length ∧
      (Table.toList t).Perm pairs :=
  toList_perm_core hb

theorem claim_C6_witness :
    build hfT pairsW 0 9 = .ok tW ∧
      (Table.len tW = pairsW.length ∧ (Table.toList tW).length = pairsW.length ∧
        (Table.toList tW).Perm pairsW) :=
  ⟨by rfl, @claim_C6_exhaustive Nat Nat _ hfT pairsW 0 9 tW (by rfl)⟩

/-- C7: for an OrderedMap, iteration yields the pairs in exactly the
original insertion order, get still returns the right value for every
inserted key, and the order index is a permutation of the range 0..N. -/
theorem claim_C7_order_preserved [DecidableEq K] {hf : Nat → K → Hashes}
    {pairs : List (K × V)} {seed retries : Nat} {ot : OrderedTable K V}
    (hb : buildOrdered hf pairs seed retries = .ok ot) :
    OrderedTable.toList ot = pairs ∧
      (∀ k v, (k, v) ∈ pairs → OrderedTable.get hf ot k = some v) ∧
      ot.idx.Perm (List.range pairs.length) :=
  ordered_core hb

theorem claim_C7_witness :
    buildOrdered hfT pairsW 0 9 = .ok otW ∧
      (OrderedTable.toList otW = pairsW ∧
        (∀ k v, (k, v) ∈ pairsW → OrderedTable.get hfT otW k = some v) ∧
        otW.idx.Perm (List.range pairsW.length)) :=
  ⟨by rfl, @claim_C7_order_preserved Nat Nat _ hfT pairsW 0 9 otW (by rfl)⟩

/-- C8: every read operation leaves the table unchanged: get, contains and
iteration in state-passing form return the input table as their final state,
and two sequential full iterations, with reads interleaved, yield identical
sequences. -/
theorem claim_C8_reads_frame [DecidableEq K] (hf : Nat → K → Hashes)
    (t : Table K V) (k k2 : K) :
    (Table.getOp hf t k).2 = t ∧
      (Table.containsOp hf t k2).2 = t ∧
      (Table.iterOp t).2 = t ∧
      (Table.iterOp ((Table.getOp hf t k).2)).1 = (Table.iterOp t).1 ∧
      (Table.iterOp ((Table.iterOp t).2)).1 = (Table.iterOp t).1 :=
  ⟨rfl, rfl, rfl, rfl, rfl⟩

/-- C9: construction from an input containing a duplicate key fails with
DuplicateKeyError, for every seed and retry budget: the duplicate check runs
before bucketing, so no table value is ever produced. -/
theorem claim_C9_duplicate_error [DecidableEq K] {hf : Nat → K → Hashes}
    {pairs : List (K × V)} (hdup : ¬ (pairs.map Prod.fst).Nodup)
    (seed retries : Nat) :
    build hf pairs seed retries = .error .duplicateKey :=
  build_duplicate hdup seed retries

theorem claim_C9_witness :
    (¬ (pairsDup.map Prod.fst).Nodup) ∧
      build hfT pairsDup 3 7 = .error .duplicateKey :=
  ⟨by decide, @claim_C9_duplicate_error Nat Nat _ hfT pairsDup (by decide) 3 7⟩

/-- C10: indexing a Map with the bracket operator at a key present in the
map returns the value associated with that key, as in the crate doc example
where the first key maps to 1. -/
theorem claim_C10_index_present [DecidableEq K] {hf : Nat → K → Hashes}
    {pairs : List (K × V)} {seed retries : Nat} {t : Table K V} {k : K} {v : V}
    (hb : build hf pairs seed retries = .ok t) (hkv : (k, v) ∈ pairs) :
    Table.indexGet hf t k = some v :=
  get_eq_some_of_mem hb hkv

theorem claim_C10_witness :
    build hfT pairs2 0 9 = .ok tW2 ∧ Table.indexGet hfT tW2 5 = some 1 :=
  ⟨by rfl, @claim_C10_index_present Nat Nat _ hfT pairs2 0 9 tW2 5 1
    (by rfl) (by decide)⟩

end Phf
